import Mathlib

/-!
# A proof-of-work hash chain (`blockchain.cpp`)

Shallow embedding of the classes `Block` and `Blockchain`.

* `std::string` is `String`, read as its list of characters.
* `int` and `time_t` fields are `Int`.  The conversion `size_t → int` in
  `addBlock` is two's complement narrowing to 32 bits (`intOfSize`); the
  signed increment `nonce++` wraps in 32 bits (`wrapInt`), from `INT_MAX` to
  `-2147483648`, as it does in the compiled program.
* `SHA256` comes from OpenSSL.  It is a parameter of every definition: a
  function from the hashed text to a buffer of `SHA256_DIGEST_LENGTH = 32`
  bytes.
* `std::time(nullptr)` is an explicit argument `now`.
* The `do … while` loop of `mineBlock` is run with fuel; `none` stands for a
  call that does not return a value (out of fuel, an exception, `chain.back()`
  on an empty chain).
* The lines written to `std::cout` by `isChainValid` are kept as a `Verdict`;
  the lines written by `mineBlock` and `printChain` change no state and are
  left out.
* The constructors `Block::Block` and `Blockchain::Blockchain` are
  `Block.create` and `Blockchain.create`.
-/

set_option maxRecDepth 100000

/-- Width of the digest buffer in bytes. -/
abbrev SHA256_DIGEST_LENGTH : Nat := 32

/-- Largest value of a 32-bit `int`. -/
def INT_MAX : Int := 2147483647

/-- The value a 32-bit `int` holds after the arithmetic result `x` is stored in it (two's
complement). -/
def wrapInt (x : Int) : Int :=
  (x + 2147483648) % 4294967296 - 2147483648

/-- The digest primitive: text in, a buffer `unsigned char hash[32]` out. -/
abbrev Digest := String → Fin SHA256_DIGEST_LENGTH → Fin 256

/-- Conversion of a `size_t` value to `int` (narrowing to 32 bits, two's complement). -/
def intOfSize (n : Nat) : Int :=
  if n % 4294967296 < 2147483648 then ((n % 4294967296 : Nat) : Int)
  else ((n % 4294967296 : Nat) : Int) - 4294967296

/-- One digit as printed under `std::hex` (lowercase). -/
def hexDigit (n : Nat) : Char :=
  "0123456789abcdef".data.getD n '0'

/-- A byte printed with `std::hex << std::setw(2) << std::setfill('0')`. -/
def hexByte (b : Fin 256) : List Char :=
  [hexDigit (b.val / 16), hexDigit (b.val % 16)]

/-- The loop `for (i = 0; i < SHA256_DIGEST_LENGTH; i++) hashStream << … hash[i]`. -/
def hexString (buf : Fin SHA256_DIGEST_LENGTH → Fin 256) : String :=
  String.mk ((List.finRange SHA256_DIGEST_LENGTH).flatMap (fun i => hexByte (buf i)))

/-- The method `std::string::substr(0, len)`. -/
def substr0 (s : String) (len : Nat) : String :=
  String.mk (s.data.take len)

/-- The string `std::string(count, '0')`. -/
def zeros (count : Nat) : String :=
  String.mk (List.replicate count '0')

/-- A block of the chain (class `Block`). -/
structure Block where
  index : Int
  previousHash : String
  data : String
  hash : String
  timestamp : Int
  nonce : Int
  deriving DecidableEq, Repr

/-- The text fed to the digest: `ss << index << previousHash << data << timestamp << nonce`. -/
def Block.hashInput (b : Block) : String :=
  toString b.index ++ b.previousHash ++ b.data ++ toString b.timestamp ++ toString b.nonce

/-- `Block::calculateHash`: the digest of the five fields, in hexadecimal. -/
def Block.calculateHash (sha256 : Digest) (b : Block) : String :=
  hexString (sha256 b.hashInput)

/-- The constructor `Block::Block(idx, prevHash, blockData)`; `now` is `std::time(nullptr)`. -/
def Block.create (sha256 : Digest) (idx : Int) (prevHash blockData : String) (now : Int) : Block :=
  let b : Block :=
    { index := idx, previousHash := prevHash, data := blockData, hash := "",
      timestamp := now, nonce := 0 }
  { b with hash := b.calculateHash sha256 }

/-- The `do … while` loop of `Block::mineBlock`, one iteration per unit of fuel: `nonce++`,
`hash = calculateHash()`, then the test `hash.substr(0, difficulty) != target`.  The loop has
no other exit; the increment of a nonce equal to `INT_MAX` leaves `-2147483648`. -/
def Block.mineLoop (sha256 : Digest) (difficulty : Nat) (target : String) :
    Block → Nat → Option Block
  | _, 0 => none
  | b, fuel + 1 =>
    let b1 : Block := { b with nonce := wrapInt (b.nonce + 1) }
    let b2 : Block := { b1 with hash := b1.calculateHash sha256 }
    if substr0 b2.hash difficulty ≠ target then Block.mineLoop sha256 difficulty target b2 fuel
    else some b2

/-- `Block::mineBlock`.  A negative `difficulty` makes `std::string target(difficulty, '0')`
throw `std::length_error`, so the call returns no value. -/
def Block.mineBlock (sha256 : Digest) (b : Block) (difficulty : Int) (fuel : Nat) : Option Block :=
  if difficulty < 0 then none
  else Block.mineLoop sha256 difficulty.toNat (zeros difficulty.toNat) b fuel

/-- The ledger (class `Blockchain`). -/
structure Blockchain where
  chain : List Block
  difficulty : Int
  deriving DecidableEq, Repr

/-- `Blockchain::createGenesisBlock`. -/
def Blockchain.createGenesisBlock (sha256 : Digest) (now : Int) : Block :=
  Block.create sha256 0 "0" "Genesis Block" now

/-- The constructor `Blockchain::Blockchain(diff)`. -/
def Blockchain.create (sha256 : Digest) (diff : Int) (now : Int) : Blockchain :=
  { chain := [] ++ [Blockchain.createGenesisBlock sha256 now], difficulty := diff }

/-- `Blockchain::addBlock`.  `chain.back()` has no defined value on an empty chain. -/
def Blockchain.addBlock (sha256 : Digest) (bc : Blockchain) (data : String) (now : Int)
    (fuel : Nat) : Option Blockchain :=
  match bc.chain.getLast? with
  | none => none
  | some back =>
    let newBlock := Block.create sha256 (intOfSize bc.chain.length) back.hash data now
    match newBlock.mineBlock sha256 bc.difficulty fuel with
    | none => none
    | some mined => some { bc with chain := bc.chain ++ [mined] }

/-- What a run of `isChainValid` reports: nothing, or one of its two messages. -/
inductive Verdict where
  | valid
  | tampered (i : Nat)
  | notLinked (i : Nat)
  deriving DecidableEq, Repr

/-- The line written to `std::cout` by `isChainValid`. -/
def Verdict.message : Verdict → String
  | .valid => ""
  | .tampered i => "Block " ++ toString i ++ " has been tampered with!"
  | .notLinked i => "Block " ++ toString i ++ " is not linked correctly!"

/-- The loop of `isChainValid` from position `i`: `previous` is `chain[i - 1]` and the list is
`chain[i], chain[i + 1], …`. -/
def Blockchain.checkFrom (sha256 : Digest) : Nat → Block → List Block → Verdict
  | _, _, [] => .valid
  | i, previous, current :: rest =>
    if current.hash ≠ current.calculateHash sha256 then .tampered i
    else if current.previousHash ≠ previous.hash then .notLinked i
    else Blockchain.checkFrom sha256 (i + 1) current rest

/-- The loop of `isChainValid` started at `i = 1`. -/
def Blockchain.validate (sha256 : Digest) (bc : Blockchain) : Verdict :=
  match bc.chain with
  | [] => .valid
  | first :: rest => Blockchain.checkFrom sha256 1 first rest

/-- `Blockchain::isChainValid`. -/
def Blockchain.isChainValid (sha256 : Digest) (bc : Blockchain) : Bool :=
  decide (bc.validate sha256 = .valid)

/-- One call of the `const` method `isChainValid` on a ledger: its answer and the ledger after. -/
def Blockchain.callIsChainValid (sha256 : Digest) (bc : Blockchain) : Bool × Blockchain :=
  (bc.isChainValid sha256, bc)

/-- The arguments of one `addBlock` call: payload, clock reading, iterations allowed. -/
structure Call where
  data : String
  now : Int
  fuel : Nat
  deriving DecidableEq, Repr

/-- A sequence of `addBlock` calls, each of which has to return for the next to run. -/
def Blockchain.addBlocks (sha256 : Digest) : Blockchain → List Call → Option Blockchain
  | bc, [] => some bc
  | bc, c :: cs =>
    match bc.addBlock sha256 c.data c.now c.fuel with
    | none => none
    | some bc1 => Blockchain.addBlocks sha256 bc1 cs

/-- A stand-in digest for concrete runs: every byte is derived from the character codes. -/
def demoDigest : Digest := fun s i =>
  Fin.ofNat ((s.data.foldl (fun acc c => (acc * 33 + c.toNat) % 65521) 7) / (i.val + 1) + 5 * i.val)

/-- The condition that ends the mining loop: the first `difficulty` characters are all `'0'`. -/
def meetsDifficulty (hash : String) (difficulty : Nat) : Prop :=
  substr0 hash difficulty = zeros difficulty

instance (hash : String) (difficulty : Nat) : Decidable (meetsDifficulty hash difficulty) := by
  unfold meetsDifficulty; infer_instance

/-- Every record after the first passes both checks of `isChainValid`, `previous` being the
record before the list. -/
def Chained (sha256 : Digest) : Block → List Block → Prop
  | _, [] => True
  | previous, current :: rest =>
    current.hash = current.calculateHash sha256 ∧ current.previousHash = previous.hash ∧
      Chained sha256 current rest

/-- Two `addBlock` calls, as in the scenario `append("A"); append("B")`. -/
def demoCalls : List Call :=
  [{ data := "A", now := 101, fuel := 40 }, { data := "B", now := 102, fuel := 40 }]

/-- The genesis record created at time 100, under `demoDigest`. -/
def demoGenesis : Block :=
  { index := 0, previousHash := "0", data := "Genesis Block",
    hash := "c9e9f781d50ff1dc778dfeb29aaadb2789fc7f0faa4ffcb06b2cf1bb8a5b3109",
    timestamp := 100, nonce := 0 }

/-- The record mined by the first call of `demoCalls`. -/
def demoBlockA : Block :=
  { index := 1,
    previousHash := "c9e9f781d50ff1dc778dfeb29aaadb2789fc7f0faa4ffcb06b2cf1bb8a5b3109",
    data := "A",
    hash := "0085b4cfe0ee4203b613ec219e53343b5f9cee52c546d26807ae5c10c9884b13",
    timestamp := 101, nonce := 34 }

/-- The record mined by the second call of `demoCalls`. -/
def demoBlockB : Block :=
  { index := 2,
    previousHash := "0085b4cfe0ee4203b613ec219e53343b5f9cee52c546d26807ae5c10c9884b13",
    data := "B",
    hash := "0a0ab891e27068e462944a62c666352b4172b8127cf57908a142ea994e08c78b",
    timestamp := 102, nonce := 1 }

/-- The ledger `Blockchain(1)` built at time 100 after `demoCalls`, under `demoDigest`. -/
def demoLedger : Blockchain :=
  { chain := [demoGenesis, demoBlockA, demoBlockB], difficulty := 1 }

/-- The record `Block(1, "ab", "A")` created at time 101 and mined at difficulty 1 under
`demoDigest`. -/
def demoMined : Block :=
  { index := 1, previousHash := "ab", data := "A",
    hash := "07086110e2c4faa34594618c01af8a8baae3319202800a9d3adf8b3ef6b3753b",
    timestamp := 101, nonce := 80 }

/-- The calls `addBlock("x")`, `2^31 - 1` times over, each at clock reading 0 and allowed one
iteration of the mining loop. -/
def manyCalls : List Call :=
  List.replicate 2147483647 { data := "x", now := 0, fuel := 1 }

/-- The number read from decimal digits, left to right, continuing from `acc`. -/
def decValue (acc : Nat) (ds : List Char) : Nat :=
  ds.foldl (fun a c => 10 * a + (c.toNat - 48)) acc

/-- The record `t` is `orig` with exactly one of the five hashed fields changed to a different
value; the stored hash is the one of `orig`. -/
def TamperedOneField (orig t : Block) : Prop :=
  t.hash = orig.hash ∧
    ((t.index ≠ orig.index ∧ t.previousHash = orig.previousHash ∧ t.data = orig.data ∧
        t.timestamp = orig.timestamp ∧ t.nonce = orig.nonce) ∨
      (t.index = orig.index ∧ t.previousHash ≠ orig.previousHash ∧ t.data = orig.data ∧
        t.timestamp = orig.timestamp ∧ t.nonce = orig.nonce) ∨
      (t.index = orig.index ∧ t.previousHash = orig.previousHash ∧ t.data ≠ orig.data ∧
        t.timestamp = orig.timestamp ∧ t.nonce = orig.nonce) ∨
      (t.index = orig.index ∧ t.previousHash = orig.previousHash ∧ t.data = orig.data ∧
        t.timestamp ≠ orig.timestamp ∧ t.nonce = orig.nonce) ∨
      (t.index = orig.index ∧ t.previousHash = orig.previousHash ∧ t.data = orig.data ∧
        t.timestamp = orig.timestamp ∧ t.nonce ≠ orig.nonce))

instance (orig t : Block) : Decidable (TamperedOneField orig t) := by
  unfold TamperedOneField; infer_instance

/-- The record `b` with `previousHash` replaced by `v` and the stored hash recomputed, so that
the record is consistent with itself. -/
def Block.relink (sha256 : Digest) (b : Block) (v : String) : Block :=
  let b1 : Block := { b with previousHash := v }
  { b1 with hash := b1.calculateHash sha256 }

/-- The ledger with the record at position `k` overwritten by `t`. -/
def Blockchain.overwrite (bc : Blockchain) (k : Nat) (t : Block) : Blockchain :=
  { bc with chain := bc.chain.set k t }

/-- The state of a ledger whose records after the first all pass both checks. -/
def WellChained (sha256 : Digest) (bc : Blockchain) : Prop :=
  ∃ first rest, bc.chain = first :: rest ∧ Chained sha256 first rest

/-- Successive calls of `isChainValid`: the answers in order and the ledger after the last. -/
def Blockchain.repeatIsChainValid (sha256 : Digest) : Nat → Blockchain → List Bool × Blockchain
  | 0, bc => ([], bc)
  | n + 1, bc =>
    let r := bc.callIsChainValid sha256
    let rs := Blockchain.repeatIsChainValid sha256 n r.2
    (r.1 :: rs.1, rs.2)

/-- The calls `addBlock("A")` at time 12 and `addBlock("B")` at time 13. -/
def pairCalls : List Call :=
  [{ data := "A", now := 12, fuel := 1 }, { data := "B", now := 13, fuel := 1 }]

/-- The genesis record created at time 10, under `demoDigest`. -/
def pairGenesis : Block :=
  { index := 0, previousHash := "0", data := "Genesis Block",
    hash := "161066944bc74565f1c8d60e65d458ec8d39efac713b0adeb6916f50341a02eb",
    timestamp := 10, nonce := 0 }

/-- The record with data "A" and timestamp 12 mined by the first call of `pairCalls`. -/
def pairBlockA : Block :=
  { index := 1,
    previousHash := "161066944bc74565f1c8d60e65d458ec8d39efac713b0adeb6916f50341a02eb",
    data := "A",
    hash := "08090c91151a1f647e2d4ab76441466baa0067df64f58f33de914907ca915c2b",
    timestamp := 12, nonce := 1 }

/-- The record `pairBlockA` with data "A1" and timestamp 2 instead of "A" and 12. -/
def pairBlockA1 : Block :=
  { pairBlockA with data := "A1", timestamp := 2 }

/-- The record mined by the second call of `pairCalls`. -/
def pairBlockB : Block :=
  { index := 2,
    previousHash := "08090c91151a1f647e2d4ab76441466baa0067df64f58f33de914907ca915c2b",
    data := "B",
    hash := "9ad292f5ff5d7d1600226ed95bf09444fec18a592e07e4c4a78c745e4a382717",
    timestamp := 13, nonce := 1 }

/-- The ledger `Blockchain(0)` built at time 10 after `pairCalls`, under `demoDigest`. -/
def pairLedger : Blockchain :=
  { chain := [pairGenesis, pairBlockA, pairBlockB], difficulty := 0 }

/-- The record `Block(1, "ab", "A")` created at time 101 as it stands once its nonce has
reached `INT_MAX`, its hash being the one of that nonce under `demoDigest`. -/
def demoSaturated : Block :=
  { index := 1, previousHash := "ab", data := "A",
    hash := "189112557f9dd8c62ae2d7f93d9e149c33d68339f7bb855427fdd8b595785c43",
    timestamp := 101, nonce := 2147483647 }

/-- The record `demoSaturated` after `mineBlock(1)` under `demoDigest`. -/
def demoWrapped : Block :=
  { index := 1, previousHash := "ab", data := "A",
    hash := "0b0a6391afc568649bfa780db36624ebba8e6845270cf4decab8a8998c80756b",
    timestamp := 101, nonce := -2147483619 }

/-! ## Mining -/

theorem Block.calculateHash_congr (sha256 : Digest) (a b : Block) (h1 : a.index = b.index)
    (h2 : a.previousHash = b.previousHash) (h3 : a.data = b.data)
    (h4 : a.timestamp = b.timestamp) (h5 : a.nonce = b.nonce) :
    a.calculateHash sha256 = b.calculateHash sha256 := by
  simp [Block.calculateHash, Block.hashInput, h1, h2, h3, h4, h5]

theorem Block.mineLoop_spec (sha256 : Digest) (difficulty : Nat) (target : String) :
    ∀ (fuel : Nat) (b b' : Block), Block.mineLoop sha256 difficulty target b fuel = some b' →
      b'.hash = b'.calculateHash sha256 ∧ substr0 b'.hash difficulty = target ∧
      b'.index = b.index ∧ b'.previousHash = b.previousHash ∧ b'.data = b.data ∧
      b'.timestamp = b.timestamp := by
  intro fuel
  induction fuel with
  | zero => intro b b' h; simp [Block.mineLoop] at h
  | succ n ih =>
    intro b b' h
    simp only [Block.mineLoop] at h
    split_ifs at h with h2
    · obtain ⟨e1, e2, e3, e4, e5, e6⟩ := ih _ _ h
      exact ⟨e1, e2, e3, e4, e5, e6⟩
    · simp only [Option.some.injEq] at h
      subst h
      exact ⟨rfl, not_not.mp h2, rfl, rfl, rfl, rfl⟩

theorem Block.mineBlock_spec (sha256 : Digest) (b b' : Block) (difficulty : Int) (fuel : Nat)
    (h : b.mineBlock sha256 difficulty fuel = some b') :
    0 ≤ difficulty ∧ b'.hash = b'.calculateHash sha256 ∧
      meetsDifficulty b'.hash difficulty.toNat ∧
      b'.index = b.index ∧ b'.previousHash = b.previousHash ∧ b'.data = b.data ∧
      b'.timestamp = b.timestamp := by
  unfold Block.mineBlock at h
  split_ifs at h with h0
  exact ⟨not_lt.mp h0, Block.mineLoop_spec sha256 _ _ fuel b b' h⟩

theorem Block.mineLoop_more_fuel (sha256 : Digest) (difficulty : Nat) (target : String) :
    ∀ (fuel : Nat) (b b' : Block), Block.mineLoop sha256 difficulty target b fuel = some b' →
      ∀ extra : Nat, Block.mineLoop sha256 difficulty target b (fuel + extra) = some b' := by
  intro fuel
  induction fuel with
  | zero => intro b b' h; simp [Block.mineLoop] at h
  | succ n ih =>
    intro b b' h extra
    rw [Nat.add_right_comm]
    simp only [Block.mineLoop] at h ⊢
    split_ifs at h ⊢ with h2
    · exact ih _ _ h extra
    · exact h

theorem Block.mineBlock_more_fuel (sha256 : Digest) (b b' : Block) (difficulty : Int)
    (fuel extra : Nat) (h : b.mineBlock sha256 difficulty fuel = some b') :
    b.mineBlock sha256 difficulty (fuel + extra) = some b' := by
  unfold Block.mineBlock at h ⊢
  split_ifs at h ⊢ with h0
  exact Block.mineLoop_more_fuel sha256 _ _ fuel b b' h extra

theorem meetsDifficulty_take (hash : String) (d : Nat) (h : meetsDifficulty hash d) :
    hash.data.take d = List.replicate d '0' := by
  unfold meetsDifficulty substr0 zeros at h
  exact congrArg String.data h

theorem meetsDifficulty_get (hash : String) (d : Nat) (h : meetsDifficulty hash d) (i : Nat)
    (hi : i < d) : hash.data[i]? = some '0' := by
  have h1 := meetsDifficulty_take hash d h
  have h2 : (hash.data.take d)[i]? = some '0' := by
    rw [h1]; simp [List.getElem?_replicate, hi]
  rw [List.getElem?_take] at h2
  simpa [hi] using h2

/-! ## Appending -/

theorem Blockchain.addBlock_spec (sha256 : Digest) (bc bc' : Blockchain) (data : String)
    (now : Int) (fuel : Nat) (h : bc.addBlock sha256 data now fuel = some bc') :
    ∃ back mined, bc.chain.getLast? = some back ∧ bc'.chain = bc.chain ++ [mined] ∧
      bc'.difficulty = bc.difficulty ∧ 0 ≤ bc.difficulty ∧
      mined.hash = mined.calculateHash sha256 ∧
      meetsDifficulty mined.hash bc.difficulty.toNat ∧
      mined.index = intOfSize bc.chain.length ∧ mined.previousHash = back.hash ∧
      mined.data = data ∧ mined.timestamp = now := by
  unfold Blockchain.addBlock at h
  split at h
  · cases h
  · rename_i back hback
    simp only at h
    split at h
    · cases h
    · rename_i mined hmined
      simp only [Option.some.injEq] at h
      subst h
      obtain ⟨h0, h1, h2, h3, h4, h5, h6⟩ := Block.mineBlock_spec sha256 _ _ _ _ hmined
      exact ⟨back, mined, hback, rfl, rfl, h0, h1, h2, h3, h4, h5, h6⟩

theorem Blockchain.addBlocks_induction (sha256 : Digest) (P : Blockchain → Prop)
    (step : ∀ (bc bc' : Blockchain) (data : String) (now : Int) (fuel : Nat), P bc →
      bc.addBlock sha256 data now fuel = some bc' → P bc') :
    ∀ (calls : List Call) (bc bc' : Blockchain), P bc →
      Blockchain.addBlocks sha256 bc calls = some bc' → P bc' := by
  intro calls
  induction calls with
  | nil =>
    intro bc bc' hP h
    simp only [Blockchain.addBlocks, Option.some.injEq] at h
    exact h ▸ hP
  | cons c cs ih =>
    intro bc bc' hP h
    simp only [Blockchain.addBlocks] at h
    split at h
    · cases h
    · rename_i bc1 h1
      exact ih bc1 bc' (step bc bc1 c.data c.now c.fuel hP h1) h

theorem Block.mineBlock_zero (sha256 : Digest) (b : Block) (fuel : Nat) :
    b.mineBlock sha256 0 (fuel + 1)
      = some { b with nonce := wrapInt (b.nonce + 1),
                      hash := Block.calculateHash sha256
                        { b with nonce := wrapInt (b.nonce + 1) } } := by
  simp [Block.mineBlock, Block.mineLoop, substr0, zeros]

theorem Blockchain.addBlock_difficulty_zero (sha256 : Digest) (bc : Blockchain) (back : Block)
    (data : String) (now : Int) (fuel : Nat) (hd : bc.difficulty = 0)
    (hback : bc.chain.getLast? = some back) :
    ∃ mined : Block, bc.addBlock sha256 data now (fuel + 1)
        = some { bc with chain := bc.chain ++ [mined] } ∧
      mined.index = intOfSize bc.chain.length ∧ mined.nonce = 1 := by
  unfold Blockchain.addBlock
  rw [hback]
  simp only
  rw [hd, Block.mineBlock_zero sha256 _ fuel]
  exact ⟨_, rfl, rfl, rfl⟩

theorem Blockchain.addBlocks_difficulty_zero (sha256 : Digest) (data : String) (now : Int)
    (fuel : Nat) :
    ∀ (n : Nat) (bc : Blockchain), bc.difficulty = 0 → 1 ≤ bc.chain.length →
      ∃ bc' : Blockchain,
        Blockchain.addBlocks sha256 bc
            (List.replicate n { data := data, now := now, fuel := fuel + 1 }) = some bc' ∧
          bc'.chain.length = bc.chain.length + n ∧ bc'.difficulty = 0 := by
  intro n
  induction n with
  | zero => intro bc hd _; exact ⟨bc, rfl, rfl, hd⟩
  | succ n ih =>
    intro bc hd hlen
    obtain ⟨back, hback⟩ : ∃ back, bc.chain.getLast? = some back := by
      cases hc : bc.chain with
      | nil => rw [hc] at hlen; cases hlen
      | cons x xs => exact ⟨_, List.getLast?_eq_getLast _ (List.cons_ne_nil x xs)⟩
    obtain ⟨mined, hadd, -, -⟩ :=
      Blockchain.addBlock_difficulty_zero sha256 bc back data now fuel hd hback
    obtain ⟨bc', h1, h2, h3⟩ := ih { bc with chain := bc.chain ++ [mined] } hd (by simp)
    refine ⟨bc', ?_, ?_, h3⟩
    · simp only [List.replicate_succ, Blockchain.addBlocks, hadd]
      exact h1
    · rw [h2]
      simp only [List.length_append, List.length_singleton]
      omega

theorem meets_invariant_addBlock (sha256 : Digest) (d : Int) (bc bc' : Blockchain)
    (data : String) (now : Int) (fuel : Nat)
    (hP : bc.difficulty = d ∧ 1 ≤ bc.chain.length ∧
      ∀ (i : Nat) (b : Block), 1 ≤ i → bc.chain[i]? = some b → meetsDifficulty b.hash d.toNat)
    (h : bc.addBlock sha256 data now fuel = some bc') :
    bc'.difficulty = d ∧ 1 ≤ bc'.chain.length ∧
      ∀ (i : Nat) (b : Block), 1 ≤ i → bc'.chain[i]? = some b →
        meetsDifficulty b.hash d.toNat := by
  obtain ⟨hd, hlen, hall⟩ := hP
  obtain ⟨back, mined, -, hchain, hdiff, -, -, hmeets, -⟩ :=
    Blockchain.addBlock_spec sha256 bc bc' data now fuel h
  refine ⟨hdiff.trans hd, by rw [hchain]; simp, ?_⟩
  intro i b hi hb
  rw [hchain] at hb
  by_cases hlt : i < bc.chain.length
  · rw [List.getElem?_append_left hlt] at hb
    exact hall i b hi hb
  · rw [List.getElem?_append_right (not_lt.mp hlt)] at hb
    cases hk : i - bc.chain.length with
    | zero =>
      rw [hk] at hb
      simp only [List.getElem?_cons_zero, Option.some.injEq] at hb
      subst hb
      rw [← hd]
      exact hmeets
    | succ k =>
      rw [hk] at hb
      simp at hb

/-! ## Validation -/

theorem Blockchain.checkFrom_valid_iff (sha256 : Digest) :
    ∀ (l : List Block) (i : Nat) (previous : Block),
      Blockchain.checkFrom sha256 i previous l = .valid ↔ Chained sha256 previous l := by
  intro l
  induction l with
  | nil => intro i previous; simp [Blockchain.checkFrom, Chained]
  | cons c rest ih =>
    intro i previous
    simp only [Blockchain.checkFrom, Chained]
    by_cases h1 : c.hash = c.calculateHash sha256
    · by_cases h2 : c.previousHash = previous.hash
      · rw [if_neg (not_not.mpr h1), if_neg (not_not.mpr h2), ih (i + 1) c]
        exact ⟨fun h => ⟨h1, h2, h⟩, fun h => h.2.2⟩
      · rw [if_neg (not_not.mpr h1), if_pos h2]
        exact ⟨fun h => (by cases h), fun h => absurd h.2.1 h2⟩
    · rw [if_pos h1]
      exact ⟨fun h => (by cases h), fun h => absurd h.1 h1⟩

theorem Chained_append_singleton (sha256 : Digest) :
    ∀ (l : List Block) (previous back b : Block), Chained sha256 previous l →
      (previous :: l).getLast? = some back → b.hash = b.calculateHash sha256 →
      b.previousHash = back.hash → Chained sha256 previous (l ++ [b]) := by
  intro l
  induction l with
  | nil =>
    intro previous back b _ hback hb hl
    simp only [List.getLast?_singleton, Option.some.injEq] at hback
    subst hback
    exact ⟨hb, hl, trivial⟩
  | cons c rest ih =>
    intro previous back b hch hback hb hl
    obtain ⟨h1, h2, h3⟩ := hch
    refine ⟨h1, h2, ih c back b h3 ?_ hb hl⟩
    rw [← hback, List.getLast?_cons_cons]

theorem Chained_iff_getElem (sha256 : Digest) :
    ∀ (l : List Block) (previous : Block), Chained sha256 previous l ↔
      ∀ (i : Nat) (current before : Block), 1 ≤ i → (previous :: l)[i]? = some current →
        (previous :: l)[i - 1]? = some before →
        current.hash = current.calculateHash sha256 ∧ current.previousHash = before.hash := by
  intro l
  induction l with
  | nil =>
    intro previous
    simp only [Chained, true_iff]
    intro i current before hi hc
    obtain ⟨j, rfl⟩ : ∃ j, i = j + 1 := ⟨i - 1, by omega⟩
    simp at hc
  | cons c rest ih =>
    intro previous
    simp only [Chained]
    constructor
    · rintro ⟨h1, h2, h3⟩ i current before hi hc hb
      obtain ⟨j, rfl⟩ : ∃ j, i = j + 1 := ⟨i - 1, by omega⟩
      cases j with
      | zero =>
        simp only [zero_add, List.getElem?_cons_succ, List.getElem?_cons_zero,
          Option.some.injEq, Nat.sub_self] at hc hb
        subst hc; subst hb
        exact ⟨h1, h2⟩
      | succ j =>
        have hc' : (c :: rest)[j + 1]? = some current := by simpa using hc
        have hb' : (c :: rest)[j + 1 - 1]? = some before := by simpa using hb
        exact (ih c).mp h3 (j + 1) current before (by omega) hc' hb'
    · intro h
      have h0 := h 1 c previous (le_refl 1) (by simp) (by simp)
      refine ⟨h0.1, h0.2, (ih c).mpr ?_⟩
      intro i current before hi hc hb
      obtain ⟨j, rfl⟩ : ∃ j, i = j + 1 := ⟨i - 1, by omega⟩
      exact h (j + 2) current before (by omega) (by simpa using hc) (by simpa using hb)

theorem WellChained_create (sha256 : Digest) (diff now : Int) :
    WellChained sha256 (Blockchain.create sha256 diff now) :=
  ⟨Blockchain.createGenesisBlock sha256 now, [], rfl, trivial⟩

theorem WellChained_addBlock (sha256 : Digest) (bc bc' : Blockchain) (data : String) (now : Int)
    (fuel : Nat) (hw : WellChained sha256 bc) (h : bc.addBlock sha256 data now fuel = some bc') :
    WellChained sha256 bc' := by
  obtain ⟨first, rest, hc, hch⟩ := hw
  obtain ⟨back, mined, hback, hchain, -, -, hhash, -, -, hprev, -⟩ :=
    Blockchain.addBlock_spec sha256 bc bc' data now fuel h
  refine ⟨first, rest ++ [mined], by rw [hchain, hc]; rfl, ?_⟩
  rw [hc] at hback
  exact Chained_append_singleton sha256 rest first back mined hch hback hhash hprev

theorem WellChained_of_built (sha256 : Digest) (diff t0 : Int) (calls : List Call)
    (bc : Blockchain)
    (h : Blockchain.addBlocks sha256 (Blockchain.create sha256 diff t0) calls = some bc) :
    WellChained sha256 bc :=
  Blockchain.addBlocks_induction sha256 (WellChained sha256)
    (fun a b data now fuel ha hab => WellChained_addBlock sha256 a b data now fuel ha hab)
    calls _ bc (WellChained_create sha256 diff t0) h

theorem Blockchain.validate_valid_iff (sha256 : Digest) (bc : Blockchain) :
    bc.validate sha256 = .valid ↔
      ∀ (i : Nat) (current before : Block), 1 ≤ i → bc.chain[i]? = some current →
        bc.chain[i - 1]? = some before →
        current.hash = current.calculateHash sha256 ∧ current.previousHash = before.hash := by
  unfold Blockchain.validate
  cases hc : bc.chain with
  | nil =>
    simp only [true_iff]
    intro i current before _ h
    simp at h
  | cons first rest =>
    simp only
    rw [Blockchain.checkFrom_valid_iff, Chained_iff_getElem]

theorem Blockchain.validate_of_wellChained (sha256 : Digest) (bc : Blockchain)
    (hw : WellChained sha256 bc) : bc.validate sha256 = .valid := by
  obtain ⟨first, rest, hc, hch⟩ := hw
  unfold Blockchain.validate
  rw [hc]
  exact (Blockchain.checkFrom_valid_iff sha256 rest 1 first).mpr hch

theorem demoLedger_built :
    Blockchain.addBlocks demoDigest (Blockchain.create demoDigest 1 100) demoCalls
      = some demoLedger := by
  decide

theorem Blockchain.repeatIsChainValid_eq (sha256 : Digest) (bc : Blockchain) :
    ∀ n : Nat, Blockchain.repeatIsChainValid sha256 n bc
      = (List.replicate n (bc.isChainValid sha256), bc) := by
  intro n
  induction n with
  | zero => rfl
  | succ n ih =>
    simp only [Blockchain.repeatIsChainValid, Blockchain.callIsChainValid, ih,
      List.replicate_succ]

theorem demoLedger_last_step :
    Blockchain.addBlock demoDigest { chain := [demoGenesis, demoBlockA], difficulty := 1 }
      "B" 102 40 = some demoLedger := by
  decide

/-! ## Decimal and hexadecimal text -/

theorem digitChar_value (k : Nat) (hk : k < 10) : (Nat.digitChar k).toNat - 48 = k := by
  interval_cases k <;> rfl

theorem digitChar_ne_minus (k : Nat) (hk : k < 10) : Nat.digitChar k ≠ '-' := by
  interval_cases k <;> decide

theorem toDigitsCore_decValue :
    ∀ (fuel n : Nat) (ds : List Char), n < fuel →
      decValue 0 (Nat.toDigitsCore 10 fuel n ds) = decValue n ds := by
  intro fuel
  induction fuel with
  | zero => intro n ds h; omega
  | succ f ih =>
    intro n ds h
    simp only [Nat.toDigitsCore]
    have hd := digitChar_value (n % 10) (Nat.mod_lt _ (by decide))
    split_ifs with h0
    · show decValue (10 * 0 + ((Nat.digitChar (n % 10)).toNat - 48)) ds = decValue n ds
      rw [hd]
      congr 1
      omega
    · rw [ih (n / 10) _ (by omega)]
      show decValue (10 * (n / 10) + ((Nat.digitChar (n % 10)).toNat - 48)) ds = decValue n ds
      rw [hd]
      congr 1
      omega

theorem toDigitsCore_ne_minus :
    ∀ (fuel n : Nat) (ds : List Char), (∀ c ∈ ds, c ≠ '-') →
      ∀ c ∈ Nat.toDigitsCore 10 fuel n ds, c ≠ '-' := by
  intro fuel
  induction fuel with
  | zero => intro n ds h; simpa [Nat.toDigitsCore] using h
  | succ f ih =>
    intro n ds h
    have hds : ∀ c ∈ Nat.digitChar (n % 10) :: ds, c ≠ '-' := by
      intro c hc
      rcases List.mem_cons.mp hc with rfl | hc
      · exact digitChar_ne_minus _ (Nat.mod_lt _ (by decide))
      · exact h c hc
    simp only [Nat.toDigitsCore]
    split_ifs with h0
    · exact hds
    · exact ih _ _ hds

theorem natRepr_injective : Function.Injective Nat.repr := by
  intro n m h
  have h1 : Nat.toDigits 10 n = Nat.toDigits 10 m := congrArg String.data h
  have h2 := congrArg (decValue 0) h1
  unfold Nat.toDigits at h2
  rwa [toDigitsCore_decValue _ _ _ (Nat.lt_succ_self n),
    toDigitsCore_decValue _ _ _ (Nat.lt_succ_self m)] at h2

theorem intToString_injective : Function.Injective (fun i : Int => toString i) := by
  have hneg : ∀ a b : Nat, toString (Int.ofNat a) ≠ toString (Int.negSucc b) := by
    intro a b h
    have h1 : Nat.toDigits 10 a = '-' :: Nat.toDigits 10 (b + 1) := congrArg String.data h
    have h2 : '-' ∈ Nat.toDigits 10 a := by rw [h1]; exact List.mem_cons_self _ _
    exact toDigitsCore_ne_minus (a + 1) a [] (by simp) '-' h2 rfl
  intro i j h
  cases i with
  | ofNat a =>
    cases j with
    | ofNat b =>
      have : Nat.repr a = Nat.repr b := h
      rw [natRepr_injective this]
    | negSucc b => exact absurd h (hneg a b)
  | negSucc a =>
    cases j with
    | ofNat b => exact absurd h.symm (hneg b a)
    | negSucc b =>
      have h1 : '-' :: Nat.toDigits 10 (a + 1) = '-' :: Nat.toDigits 10 (b + 1) :=
        congrArg String.data h
      have h2 : Nat.repr (a + 1) = Nat.repr (b + 1) :=
        congrArg String.mk (List.cons.inj h1).2
      have := natRepr_injective h2
      have hab : a = b := by omega
      rw [hab]

theorem hexDigit_injective :
    ∀ x < 16, ∀ y < 16, hexDigit x = hexDigit y → x = y := by
  decide

theorem hexByte_injective (a b : Fin 256) (h : hexByte a = hexByte b) : a = b := by
  unfold hexByte at h
  have h1 := (List.cons.inj h).1
  have h2 := (List.cons.inj (List.cons.inj h).2).1
  have ha := a.isLt
  have hb := b.isLt
  have e1 := hexDigit_injective _ (by omega) _ (by omega) h1
  have e2 := hexDigit_injective _ (Nat.mod_lt _ (by decide)) _ (Nat.mod_lt _ (by decide)) h2
  apply Fin.ext
  omega

theorem flatMap_hexByte_injective (buf buf' : Fin 32 → Fin 256) :
    ∀ l : List (Fin 32),
      l.flatMap (fun i => hexByte (buf i)) = l.flatMap (fun i => hexByte (buf' i)) →
      ∀ i ∈ l, buf i = buf' i := by
  intro l
  induction l with
  | nil => intro _ i hi; cases hi
  | cons a rest ih =>
    intro h i hi
    simp only [List.flatMap_cons] at h
    have hlen : (hexByte (buf a)).length = (hexByte (buf' a)).length := rfl
    obtain ⟨h1, h2⟩ := List.append_inj h hlen
    rcases List.mem_cons.mp hi with rfl | hi
    · exact hexByte_injective _ _ h1
    · exact ih h2 i hi

theorem hexString_injective (buf buf' : Fin 32 → Fin 256) (h : hexString buf = hexString buf') :
    buf = buf' := by
  funext i
  exact flatMap_hexByte_injective buf buf' (List.finRange 32) (congrArg String.data h) i
    (List.mem_finRange i)

/-! ## Overwritten records -/

theorem Block.hashInput_data (b : Block) :
    b.hashInput.data = (toString b.index).data ++ b.previousHash.data ++ b.data.data ++
      (toString b.timestamp).data ++ (toString b.nonce).data := by
  simp [Block.hashInput, String.data_append]

theorem string_eq_of_data_eq (s t : String) (h : s.data = t.data) : s = t := by
  cases s; cases t; simp only at h; rw [h]

theorem Block.hashInput_ne_of_tampered (orig t : Block) (h : TamperedOneField orig t) :
    t.hashInput ≠ orig.hashInput := by
  intro heq
  have hd := congrArg String.data heq
  rw [Block.hashInput_data, Block.hashInput_data] at hd
  obtain ⟨-, hcases⟩ := h
  rcases hcases with ⟨hne, e2, e3, e4, e5⟩ | ⟨e1, hne, e3, e4, e5⟩ | ⟨e1, e2, hne, e4, e5⟩ |
    ⟨e1, e2, e3, hne, e5⟩ | ⟨e1, e2, e3, e4, hne⟩
  · rw [e2, e3, e4, e5] at hd
    simp only [List.append_left_inj] at hd
    exact hne (intToString_injective (string_eq_of_data_eq _ _ hd))
  · rw [e1, e3, e4, e5] at hd
    simp only [List.append_left_inj, List.append_right_inj] at hd
    exact hne (string_eq_of_data_eq _ _ hd)
  · rw [e1, e2, e4, e5] at hd
    simp only [List.append_left_inj, List.append_right_inj] at hd
    exact hne (string_eq_of_data_eq _ _ hd)
  · rw [e1, e2, e3, e5] at hd
    simp only [List.append_left_inj, List.append_right_inj] at hd
    exact hne (intToString_injective (string_eq_of_data_eq _ _ hd))
  · rw [e1, e2, e3, e4] at hd
    simp only [List.append_right_inj] at hd
    exact hne (intToString_injective (string_eq_of_data_eq _ _ hd))

theorem Blockchain.checkFrom_set_tampered (sha256 : Digest) (t : Block)
    (ht : t.hash ≠ t.calculateHash sha256) :
    ∀ (l : List Block) (i k : Nat) (previous orig : Block), Chained sha256 previous l →
      l[k]? = some orig → Blockchain.checkFrom sha256 i previous (l.set k t) = .tampered (i + k) := by
  intro l
  induction l with
  | nil => intro i k previous orig _ h; simp at h
  | cons c rest ih =>
    intro i k previous orig hch h
    obtain ⟨h1, h2, h3⟩ := hch
    cases k with
    | zero =>
      simp only [List.set_cons_zero, Blockchain.checkFrom]
      rw [if_pos ht]
      rfl
    | succ k =>
      simp only [List.set_cons_succ, Blockchain.checkFrom]
      rw [if_neg (not_not.mpr h1), if_neg (not_not.mpr h2),
        ih (i + 1) k c orig h3 (by simpa using h)]
      congr 1
      omega

theorem Blockchain.checkFrom_set_notLinked (sha256 : Digest) (t : Block)
    (ht : t.hash = t.calculateHash sha256) :
    ∀ (l : List Block) (i k : Nat) (previous orig before : Block), Chained sha256 previous l →
      l[k]? = some orig → (previous :: l)[k]? = some before → t.previousHash ≠ before.hash →
      Blockchain.checkFrom sha256 i previous (l.set k t) = .notLinked (i + k) := by
  intro l
  induction l with
  | nil => intro i k previous orig before _ h; simp at h
  | cons c rest ih =>
    intro i k previous orig before hch h hb hne
    obtain ⟨h1, h2, h3⟩ := hch
    cases k with
    | zero =>
      simp only [List.getElem?_cons_zero, Option.some.injEq] at hb
      subst hb
      simp only [List.set_cons_zero, Blockchain.checkFrom]
      rw [if_neg (not_not.mpr ht), if_pos hne]
      rfl
    | succ k =>
      simp only [List.set_cons_succ, Blockchain.checkFrom]
      rw [if_neg (not_not.mpr h1), if_neg (not_not.mpr h2),
        ih (i + 1) k c orig before h3 (by simpa using h) (by simpa using hb) hne]
      congr 1
      omega

theorem Blockchain.isChainValid_eq_false (sha256 : Digest) (bc : Blockchain)
    (h : bc.validate sha256 ≠ .valid) : bc.isChainValid sha256 = false := by
  unfold Blockchain.isChainValid
  exact decide_eq_false h

/-! ## Hexadecimal layout -/

theorem flatMap_pair_getElem {α : Type} (g h : α → Char) :
    ∀ (l : List α) (k : Nat),
      (l.flatMap (fun i => [g i, h i]))[2 * k]? = l[k]?.map g ∧
        (l.flatMap (fun i => [g i, h i]))[2 * k + 1]? = l[k]?.map h := by
  intro l
  induction l with
  | nil => intro k; simp
  | cons a rest ih =>
    intro k
    cases k with
    | zero => simp [List.flatMap_cons]
    | succ k =>
      have e : 2 * (k + 1) = 2 * k + 1 + 1 := by omega
      obtain ⟨h1, h2⟩ := ih k
      simp only [List.flatMap_cons, e, List.cons_append, List.nil_append,
        List.getElem?_cons_succ]
      exact ⟨h1, h2⟩

theorem flatMap_pair_length {α : Type} (g h : α → Char) :
    ∀ l : List α, (l.flatMap (fun i => [g i, h i])).length = 2 * l.length := by
  intro l
  induction l with
  | nil => rfl
  | cons a rest ih =>
    simp only [List.flatMap_cons, List.length_append, List.length_cons, List.length_nil, ih]
    omega

theorem hexString_data (buf : Fin SHA256_DIGEST_LENGTH → Fin 256) :
    (hexString buf).data = (List.finRange SHA256_DIGEST_LENGTH).flatMap
      (fun i => [hexDigit ((buf i).val / 16), hexDigit ((buf i).val % 16)]) :=
  rfl

theorem hexDigit_table : ∀ n < 16, "0123456789abcdef".data[n]? = some (hexDigit n) := by
  decide

theorem hexDigit_mem : ∀ n < 16, hexDigit n ∈ "0123456789abcdef".data := by
  decide

theorem finRange_getElem? (n : Nat) (i : Fin n) : (List.finRange n)[i.val]? = some i := by
  rw [List.getElem?_eq_getElem (by simp)]
  simp

/-! ## Mining: no exit above the digest width -/

theorem substr0_ne_zeros_of_short (s : String) (d : Nat) (hlen : s.length < d) :
    substr0 s d ≠ zeros d := by
  intro h
  have h1 := congrArg (fun x : String => x.data.length) h
  simp only [substr0, zeros, List.length_take, List.length_replicate] at h1
  have h2 : s.data.length < d := hlen
  omega

theorem Block.mineLoop_never (sha256 : Digest) (difficulty : Nat)
    (hexit : ∀ b : Block, substr0 (b.calculateHash sha256) difficulty ≠ zeros difficulty) :
    ∀ (fuel : Nat) (b : Block),
      Block.mineLoop sha256 difficulty (zeros difficulty) b fuel = none := by
  intro fuel
  induction fuel with
  | zero => intro b; rfl
  | succ n ih =>
    intro b
    simp only [Block.mineLoop]
    split_ifs with h2
    · exact ih _
    · exact absurd (not_not.mp h2) (hexit _)

theorem Block.calculateHash_length (sha256 : Digest) (b : Block) :
    (b.calculateHash sha256).length = 64 := by
  show (hexString (sha256 b.hashInput)).data.length = 64
  rw [hexString_data, flatMap_pair_length, List.length_finRange]
  rfl

/-! ## Sealed records, swapped records -/

theorem intOfSize_of_lt (n : Nat) (h : n < 2147483648) : intOfSize n = (n : Int) := by
  unfold intOfSize
  have hmod : n % 4294967296 = n := Nat.mod_eq_of_lt (by omega)
  rw [hmod, if_pos h]

theorem sealed_invariant_addBlock (sha256 : Digest) (bc bc' : Blockchain) (data : String)
    (now : Int) (fuel : Nat)
    (hP : ∀ (i : Nat) (b : Block), bc.chain[i]? = some b →
      b.hash = b.calculateHash sha256 ∧ b.index = intOfSize i)
    (h : bc.addBlock sha256 data now fuel = some bc') :
    ∀ (i : Nat) (b : Block), bc'.chain[i]? = some b →
      b.hash = b.calculateHash sha256 ∧ b.index = intOfSize i := by
  obtain ⟨back, mined, -, hchain, -, -, hhash, -, hidx, -⟩ :=
    Blockchain.addBlock_spec sha256 bc bc' data now fuel h
  intro i b hb
  rw [hchain] at hb
  by_cases hlt : i < bc.chain.length
  · rw [List.getElem?_append_left hlt] at hb
    exact hP i b hb
  · rw [List.getElem?_append_right (not_lt.mp hlt)] at hb
    cases hk : i - bc.chain.length with
    | zero =>
      rw [hk] at hb
      simp only [List.getElem?_cons_zero, Option.some.injEq] at hb
      subst hb
      have hi : i = bc.chain.length := by omega
      rw [hi]
      exact ⟨hhash, hidx⟩
    | succ j =>
      rw [hk] at hb
      simp at hb

theorem sealed_of_built (sha256 : Digest) (d t0 : Int) (calls : List Call) (bc : Blockchain)
    (h : Blockchain.addBlocks sha256 (Blockchain.create sha256 d t0) calls = some bc) :
    ∀ (i : Nat) (b : Block), bc.chain[i]? = some b →
      b.hash = b.calculateHash sha256 ∧ b.index = intOfSize i := by
  refine Blockchain.addBlocks_induction sha256
    (fun x => ∀ (i : Nat) (b : Block), x.chain[i]? = some b →
      b.hash = b.calculateHash sha256 ∧ b.index = intOfSize i)
    (fun x y data now fuel hx hxy => sealed_invariant_addBlock sha256 x y data now fuel hx hxy)
    calls (Blockchain.create sha256 d t0) bc ?_ h
  intro i b hb
  cases i with
  | zero =>
    simp only [Blockchain.create, List.nil_append, List.getElem?_cons_zero,
      Option.some.injEq] at hb
    subst hb
    exact ⟨rfl, rfl⟩
  | succ j => simp [Blockchain.create] at hb

theorem Blockchain.validate_overwrite_valid (sha256 : Digest) (bc : Blockchain) (k : Nat)
    (r r' : Block) (hv : bc.validate sha256 = .valid) (hr : bc.chain[k]? = some r)
    (hcalc : r'.calculateHash sha256 = r.calculateHash sha256)
    (hprev : r'.previousHash = r.previousHash) (hhash : r'.hash = r.hash) :
    (bc.overwrite k r').validate sha256 = .valid := by
  rw [Blockchain.validate_valid_iff] at hv ⊢
  have hklt : k < bc.chain.length := (List.getElem?_eq_some_iff.mp hr).1
  intro i cur bef hi hc hb
  simp only [Blockchain.overwrite, List.getElem?_set] at hc hb
  by_cases hki : k = i
  · subst hki
    rw [if_pos rfl, if_pos hklt] at hc
    rw [if_neg (by omega)] at hb
    cases hc
    obtain ⟨e1, e2⟩ := hv k r bef hi hr hb
    exact ⟨by rw [hhash, hcalc]; exact e1, by rw [hprev]; exact e2⟩
  · rw [if_neg hki] at hc
    by_cases hk1 : k = i - 1
    · rw [if_pos hk1, if_pos hklt] at hb
      cases hb
      obtain ⟨e1, e2⟩ := hv i cur r hi hc (hk1 ▸ hr)
      exact ⟨e1, by rw [hhash]; exact e2⟩
    · rw [if_neg hk1] at hb
      exact hv i cur bef hi hc hb

theorem pairLedger_built :
    Blockchain.addBlocks demoDigest (Blockchain.create demoDigest 0 10) pairCalls
      = some pairLedger := by
  decide

/-! ## Within the range of `int` -/

theorem wrapInt_of_range (x : Int) (h1 : -2147483648 ≤ x) (h2 : x ≤ 2147483647) :
    wrapInt x = x := by
  unfold wrapInt
  omega

theorem Block.mineBlock_zero_in_range (sha256 : Digest) (b : Block) (fuel : Nat)
    (h1 : -2147483648 ≤ b.nonce) (h2 : b.nonce < INT_MAX) :
    b.mineBlock sha256 0 (fuel + 1)
      = some { b with nonce := b.nonce + 1,
                      hash := Block.calculateHash sha256 { b with nonce := b.nonce + 1 } } := by
  have hw : wrapInt (b.nonce + 1) = b.nonce + 1 :=
    wrapInt_of_range _ (by omega) (by unfold INT_MAX at h2; omega)
  rw [Block.mineBlock_zero, hw]

theorem Block.mineLoop_least_in_range (sha256 : Digest) (difficulty : Nat) (target : String) :
    ∀ (fuel : Nat) (b b' : Block), Block.mineLoop sha256 difficulty target b fuel = some b' →
      -2147483649 ≤ b.nonce → b.nonce + (fuel : Int) ≤ 2147483647 →
      b.nonce < b'.nonce ∧ b'.nonce ≤ b.nonce + (fuel : Int) ∧
        ∀ m : Int, b.nonce < m → m < b'.nonce →
          substr0 (Block.calculateHash sha256 { b with nonce := m }) difficulty ≠ target := by
  intro fuel
  induction fuel with
  | zero => intro b b' h; simp [Block.mineLoop] at h
  | succ n ih =>
    intro b b' h hlo hhi
    have hw : wrapInt (b.nonce + 1) = b.nonce + 1 :=
      wrapInt_of_range _ (by omega) (by push_cast at hhi; omega)
    simp only [Block.mineLoop, hw] at h
    split_ifs at h with h2
    · obtain ⟨e1, e2, e3⟩ := ih _ _ h (by simp only; omega) (by push_cast at hhi; simp only; omega)
      simp only at e1 e2 e3
      refine ⟨by omega, by push_cast; omega, ?_⟩
      intro m hm1 hm2
      by_cases hm : m = b.nonce + 1
      · subst hm
        exact h2
      · exact e3 m (by omega) hm2
    · simp only [Option.some.injEq] at h
      subst h
      refine ⟨by simp, by push_cast; show b.nonce + 1 ≤ b.nonce + ((n : Int) + 1); omega, ?_⟩
      intro m hm1 hm2
      have hm3 : m < b.nonce + 1 := hm2
      omega

theorem Blockchain.addBlock_new_record (sha256 : Digest) (bc bc' : Blockchain) (back : Block)
    (data : String) (now : Int) (fuel : Nat) (hback : bc.chain.getLast? = some back)
    (h : bc.addBlock sha256 data now fuel = some bc') :
    bc'.chain.length = bc.chain.length + 1 ∧
      ∃ b : Block, bc'.chain[bc.chain.length]? = some b ∧ bc'.chain.getLast? = some b ∧
        b.previousHash = back.hash ∧ b.data = data ∧
        (bc.chain.length < 2147483648 → b.index = (bc.chain.length : Int)) := by
  obtain ⟨back', mined, hback', hchain, -, -, -, -, hidx, hprev, hdata, -⟩ :=
    Blockchain.addBlock_spec sha256 bc bc' data now fuel h
  rw [hback] at hback'
  cases hback'
  refine ⟨by rw [hchain]; simp, mined, ?_, ?_, hprev, hdata, ?_⟩
  · rw [hchain]; exact List.getElem?_concat_length _ _
  · rw [hchain]; exact List.getLast?_concat _
  · intro hsmall
    rw [hidx, intOfSize_of_lt _ hsmall]

theorem built_sealed_in_range (sha256 : Digest) (d t0 : Int) (calls : List Call)
    (bc : Blockchain)
    (h : Blockchain.addBlocks sha256 (Blockchain.create sha256 d t0) calls = some bc)
    (i : Nat) (b : Block) (hb : bc.chain[i]? = some b) :
    b.hash = b.calculateHash sha256 ∧ (i < 2147483648 → b.index = (i : Int)) := by
  obtain ⟨h1, h2⟩ := sealed_of_built sha256 d t0 calls bc h i b hb
  exact ⟨h1, fun hi => by rw [h2, intOfSize_of_lt i hi]⟩

/-! ## C1 -/

/-- C1: on a ledger obtained from the constructor by `addBlock` calls that all return,
`isChainValid` returns true, and any number of successive calls all answer true and leave the
chain and the difficulty as they were. -/
theorem built_ledger_is_valid (sha256 : Digest) (diff t0 : Int) (calls : List Call)
    (bc : Blockchain)
    (h : Blockchain.addBlocks sha256 (Blockchain.create sha256 diff t0) calls = some bc) :
    bc.isChainValid sha256 = true ∧
      ∀ n : Nat, Blockchain.repeatIsChainValid sha256 n bc = (List.replicate n true, bc) := by
  have hv : bc.isChainValid sha256 = true := by
    unfold Blockchain.isChainValid
    exact decide_eq_true
      (Blockchain.validate_of_wellChained sha256 bc (WellChained_of_built sha256 diff t0 calls bc h))
  refine ⟨hv, fun n => ?_⟩
  rw [Blockchain.repeatIsChainValid_eq, hv]

theorem built_ledger_is_valid_witness :
    Blockchain.addBlocks demoDigest (Blockchain.create demoDigest 1 100) demoCalls
        = some demoLedger ∧
      demoLedger.chain.length = 3 ∧
      (demoLedger.isChainValid demoDigest = true ∧
        ∀ n : Nat, Blockchain.repeatIsChainValid demoDigest n demoLedger
          = (List.replicate n true, demoLedger)) :=
  ⟨demoLedger_built, rfl, built_ledger_is_valid demoDigest 1 100 demoCalls demoLedger demoLedger_built⟩

/-! ## C2 -/

/-- C2, refuted as stated at `k = 0`: whatever the digest, overwriting the payload of the
genesis record of a fresh ledger, stored hash unchanged, is not reported, and the same holds
for the genesis record of the three-record ledger `demoLedger`: `isChainValid` answers true. -/
theorem genesis_tamper_undetected :
    (¬ ∃ sha256 : Digest,
        ¬ (TamperedOneField (Blockchain.createGenesisBlock sha256 100)
            { Blockchain.createGenesisBlock sha256 100 with data := "Tampered" } ∧
          Blockchain.isChainValid sha256
            ((Blockchain.create sha256 4 100).overwrite 0
              { Blockchain.createGenesisBlock sha256 100 with data := "Tampered" }) = true)) ∧
      demoLedger.chain[0]? = some demoGenesis ∧
      TamperedOneField demoGenesis { demoGenesis with data := "Tampered" } ∧
      Blockchain.isChainValid demoDigest
        (demoLedger.overwrite 0 { demoGenesis with data := "Tampered" }) = true := by
  refine ⟨?_, rfl, by decide, by decide⟩
  rintro ⟨sha256, h⟩
  apply h
  have hne : ("Tampered" : String) ≠ "Genesis Block" := by decide
  refine ⟨⟨rfl, Or.inr (Or.inr (Or.inl ⟨rfl, rfl, hne, rfl, rfl⟩))⟩, ?_⟩
  simp [Blockchain.isChainValid, Blockchain.validate, Blockchain.overwrite, Blockchain.create,
    Blockchain.checkFrom]

/-- C2, amended: in a ledger built by the constructor and `addBlock` calls that return, take a
record at a position `k ≥ 1` and change exactly one of its five hashed fields to a different
value, stored hash unchanged.  If the digest does not collide on the text of the changed record
and that of the original, `isChainValid` returns false and the report is "tampered" at `k`. -/
theorem tamper_detected (sha256 : Digest) (diff t0 : Int) (calls : List Call) (bc : Blockchain)
    (k : Nat) (orig t : Block)
    (h : Blockchain.addBlocks sha256 (Blockchain.create sha256 diff t0) calls = some bc)
    (hk : 1 ≤ k) (horig : bc.chain[k]? = some orig) (hone : TamperedOneField orig t)
    (hfree : sha256 t.hashInput = sha256 orig.hashInput → t.hashInput = orig.hashInput) :
    (bc.overwrite k t).validate sha256 = .tampered k ∧
      (bc.overwrite k t).isChainValid sha256 = false := by
  obtain ⟨first, rest, hc, hch⟩ := WellChained_of_built sha256 diff t0 calls bc h
  obtain ⟨j, rfl⟩ : ∃ j, k = j + 1 := ⟨k - 1, by omega⟩
  rw [hc] at horig
  have horig' : rest[j]? = some orig := by simpa using horig
  have hsealed : orig.hash = orig.calculateHash sha256 :=
    ((Chained_iff_getElem sha256 rest first).mp hch (j + 1) orig
      ((first :: rest)[j]?.getD orig) (by omega) horig (by
        have hj : j < (first :: rest).length := by
          have := (List.getElem?_eq_some_iff.mp horig').1
          simp only [List.length_cons]; omega
        rw [Nat.add_sub_cancel, List.getElem?_eq_getElem hj]; rfl)).1
  have ht : t.hash ≠ t.calculateHash sha256 := by
    intro heq
    rw [hone.1, hsealed] at heq
    have hbuf := hexString_injective _ _ heq
    exact Block.hashInput_ne_of_tampered orig t hone (hfree hbuf.symm)
  have hv : (bc.overwrite (j + 1) t).validate sha256 = .tampered (j + 1) := by
    unfold Blockchain.validate Blockchain.overwrite
    simp only [hc, List.set_cons_succ]
    rw [Blockchain.checkFrom_set_tampered sha256 t ht rest 1 j first orig hch horig',
      Nat.add_comm]
  exact ⟨hv, Blockchain.isChainValid_eq_false sha256 _ (by rw [hv]; exact fun e => by cases e)⟩

theorem tamper_detected_witness :
    Blockchain.addBlocks demoDigest (Blockchain.create demoDigest 1 100) demoCalls
        = some demoLedger ∧
      1 ≤ 1 ∧ demoLedger.chain[1]? = some demoBlockA ∧
      TamperedOneField demoBlockA { demoBlockA with data := "A-tampered" } ∧
      ((demoLedger.overwrite 1 { demoBlockA with data := "A-tampered" }).validate demoDigest
          = .tampered 1 ∧
        (demoLedger.overwrite 1 { demoBlockA with data := "A-tampered" }).isChainValid
          demoDigest = false) :=
  ⟨demoLedger_built, by decide, rfl, by decide,
    tamper_detected demoDigest 1 100 demoCalls demoLedger 1 demoBlockA
      { demoBlockA with data := "A-tampered" } demoLedger_built (by decide) rfl (by decide)
      (fun e => absurd (congrFun e 0) (by decide))⟩

/-! ## C3 -/

/-- C3: in a ledger built by the constructor and `addBlock` calls that return, take a record at
a position `k` that has a predecessor (`k ≥ 1`), replace its `previousHash` by a value different
from the hash stored at position `k - 1` and store the recomputed hash.  Then `isChainValid`
returns false, and the report is "not linked correctly" at `k`, not "tampered". -/
theorem link_break_detected (sha256 : Digest) (diff t0 : Int) (calls : List Call)
    (bc : Blockchain) (k : Nat) (orig before : Block) (v : String)
    (h : Blockchain.addBlocks sha256 (Blockchain.create sha256 diff t0) calls = some bc)
    (hk : 1 ≤ k) (horig : bc.chain[k]? = some orig) (hbefore : bc.chain[k - 1]? = some before)
    (hv : v ≠ before.hash) :
    (bc.overwrite k (orig.relink sha256 v)).validate sha256 = .notLinked k ∧
      (bc.overwrite k (orig.relink sha256 v)).isChainValid sha256 = false ∧
      ((bc.overwrite k (orig.relink sha256 v)).validate sha256).message
        = "Block " ++ toString k ++ " is not linked correctly!" := by
  obtain ⟨first, rest, hc, hch⟩ := WellChained_of_built sha256 diff t0 calls bc h
  obtain ⟨j, rfl⟩ : ∃ j, k = j + 1 := ⟨k - 1, by omega⟩
  rw [hc] at horig hbefore
  have horig' : rest[j]? = some orig := by simpa using horig
  have hbefore' : (first :: rest)[j]? = some before := by simpa using hbefore
  have hval : (bc.overwrite (j + 1) (orig.relink sha256 v)).validate sha256
      = .notLinked (j + 1) := by
    unfold Blockchain.validate Blockchain.overwrite
    simp only [hc, List.set_cons_succ]
    rw [Blockchain.checkFrom_set_notLinked sha256 (orig.relink sha256 v) rfl rest 1 j first orig
      before hch horig' hbefore' hv, Nat.add_comm]
  refine ⟨hval, Blockchain.isChainValid_eq_false sha256 _ (by rw [hval]; exact fun e => by cases e),
    ?_⟩
  rw [hval]
  rfl

theorem link_break_detected_witness :
    Blockchain.addBlocks demoDigest (Blockchain.create demoDigest 1 100) demoCalls
        = some demoLedger ∧
      1 ≤ 2 ∧ demoLedger.chain[2]? = some demoBlockB ∧
      demoLedger.chain[2 - 1]? = some demoBlockA ∧ "unrelated" ≠ demoBlockA.hash ∧
      ((demoLedger.overwrite 2 (demoBlockB.relink demoDigest "unrelated")).validate demoDigest
          = .notLinked 2 ∧
        (demoLedger.overwrite 2 (demoBlockB.relink demoDigest "unrelated")).isChainValid
          demoDigest = false ∧
        ((demoLedger.overwrite 2 (demoBlockB.relink demoDigest "unrelated")).validate
          demoDigest).message = "Block " ++ toString 2 ++ " is not linked correctly!") :=
  ⟨demoLedger_built, by decide, rfl, rfl, by decide,
    link_break_detected demoDigest 1 100 demoCalls demoLedger 2 demoBlockB demoBlockA
      "unrelated" demoLedger_built (by decide) rfl rfl (by decide)⟩

/-! ## C4 -/

/-- C4: in a ledger obtained from the constructor by `addBlock` calls that all return, every
record at a position `i` with `1 ≤ i` stores as `previousHash` the `hash` stored in the record
at position `i - 1`. -/
theorem built_ledger_linked (sha256 : Digest) (diff t0 : Int) (calls : List Call)
    (bc : Blockchain)
    (h : Blockchain.addBlocks sha256 (Blockchain.create sha256 diff t0) calls = some bc)
    (i : Nat) (current before : Block) (hi : 1 ≤ i) (hcur : bc.chain[i]? = some current)
    (hbefore : bc.chain[i - 1]? = some before) :
    current.previousHash = before.hash :=
  ((Blockchain.validate_valid_iff sha256 bc).mp
    (Blockchain.validate_of_wellChained sha256 bc (WellChained_of_built sha256 diff t0 calls bc h))
    i current before hi hcur hbefore).2

theorem built_ledger_linked_witness :
    Blockchain.addBlocks demoDigest (Blockchain.create demoDigest 1 100) demoCalls
        = some demoLedger ∧
      1 ≤ 2 ∧ demoLedger.chain[2]? = some demoBlockB ∧
      demoLedger.chain[2 - 1]? = some demoBlockA ∧
      demoBlockB.previousHash = demoBlockA.hash :=
  ⟨demoLedger_built, by decide, rfl, rfl,
    built_ledger_linked demoDigest 1 100 demoCalls demoLedger demoLedger_built 2 demoBlockB
      demoBlockA (by decide) rfl rfl⟩

/-! ## C5 -/

/-- C5: if `mineBlock(d)` returns, for any record and any difficulty `d` (a call with `d < 0`
does not return), then the first `d` characters of the stored hash are all `'0'` (the exit test
of the loop holds) and the stored hash is `calculateHash()` of the record as returned, final
nonce included. -/
theorem mineBlock_proof_of_work (sha256 : Digest) (b b' : Block) (d : Int) (fuel : Nat)
    (h : b.mineBlock sha256 d fuel = some b') :
    b'.hash.data.take d.toNat = List.replicate d.toNat '0' ∧
      (∀ j : Nat, j < d.toNat → b'.hash.data[j]? = some '0') ∧
      b'.hash = b'.calculateHash sha256 := by
  obtain ⟨-, h1, h2, -⟩ := Block.mineBlock_spec sha256 b b' d fuel h
  exact ⟨meetsDifficulty_take _ _ h2, meetsDifficulty_get _ _ h2, h1⟩

theorem mineBlock_proof_of_work_witness :
    (Block.create demoDigest 1 "ab" "A" 101).mineBlock demoDigest 1 100 = some demoMined ∧
      (demoMined.hash.data.take (1 : Int).toNat = List.replicate (1 : Int).toNat '0' ∧
        (∀ j : Nat, j < (1 : Int).toNat → demoMined.hash.data[j]? = some '0') ∧
        demoMined.hash = demoMined.calculateHash demoDigest) :=
  ⟨by decide,
    mineBlock_proof_of_work demoDigest (Block.create demoDigest 1 "ab" "A" 101) demoMined 1 100
      (by decide)⟩

/-! ## C6 -/

/-- C6: in a ledger built by `Blockchain(d)` and `addBlock` calls that all return, every
record at a position `i ≥ 1` has a stored hash whose first `d` characters are all `'0'`.  This
holds for every `d`, so in particular for `0 ≤ d ≤ 64`. -/
theorem built_ledger_meets_difficulty (sha256 : Digest) (d t0 : Int) (calls : List Call)
    (bc : Blockchain)
    (h : Blockchain.addBlocks sha256 (Blockchain.create sha256 d t0) calls = some bc)
    (i : Nat) (b : Block) (hi : 1 ≤ i) (hb : bc.chain[i]? = some b) :
    b.hash.data.take d.toNat = List.replicate d.toNat '0' ∧
      ∀ j : Nat, j < d.toNat → b.hash.data[j]? = some '0' := by
  have hinv := Blockchain.addBlocks_induction sha256
    (fun x => x.difficulty = d ∧ 1 ≤ x.chain.length ∧
      ∀ (i : Nat) (b : Block), 1 ≤ i → x.chain[i]? = some b → meetsDifficulty b.hash d.toNat)
    (fun x y data now fuel hx hxy => meets_invariant_addBlock sha256 d x y data now fuel hx hxy)
    calls (Blockchain.create sha256 d t0) bc
    ⟨rfl, by simp [Blockchain.create], by
      intro i b hi hb
      obtain ⟨k, rfl⟩ : ∃ k, i = k + 1 := ⟨i - 1, by omega⟩
      simp [Blockchain.create] at hb⟩ h
  have hm := hinv.2.2 i b hi hb
  exact ⟨meetsDifficulty_take _ _ hm, meetsDifficulty_get _ _ hm⟩

theorem built_ledger_meets_difficulty_witness :
    Blockchain.addBlocks demoDigest (Blockchain.create demoDigest 1 100) demoCalls
        = some demoLedger ∧
      1 ≤ 2 ∧ demoLedger.chain[2]? = some demoBlockB ∧
      (demoBlockB.hash.data.take (1 : Int).toNat = List.replicate (1 : Int).toNat '0' ∧
        ∀ j : Nat, j < (1 : Int).toNat → demoBlockB.hash.data[j]? = some '0') :=
  ⟨demoLedger_built, by decide, rfl,
    built_ledger_meets_difficulty demoDigest 1 100 demoCalls demoLedger demoLedger_built 2
      demoBlockB (by decide) rfl⟩

/-! ## C7 -/

/-- C7, refuted as stated: `Blockchain(-1)` and `Blockchain(65)` are constructed like any other
ledger; each holds its genesis record and the difficulty it was given. -/
theorem create_accepts_any_difficulty :
    (Blockchain.create demoDigest (-1) 100).chain = [demoGenesis] ∧
      (Blockchain.create demoDigest (-1) 100).difficulty = -1 ∧
      (Blockchain.create demoDigest 65 100).chain = [demoGenesis] ∧
      (Blockchain.create demoDigest 65 100).difficulty = 65 := by
  refine ⟨?_, rfl, ?_, rfl⟩ <;> decide

/-- C7, amended: the constructor checks nothing; for every difficulty, in or out of the range
`0 … 64`, it yields a ledger of that difficulty whose chain is the genesis record alone. -/
theorem create_total (sha256 : Digest) (d now : Int) :
    (Blockchain.create sha256 d now).chain = [Blockchain.createGenesisBlock sha256 now] ∧
      (Blockchain.create sha256 d now).chain.length = 1 ∧
      (Blockchain.create sha256 d now).difficulty = d :=
  ⟨rfl, rfl, rfl⟩

/-! ## C8 -/

/-- C8, at the failing input: `2^31 - 1` calls of `addBlock` on `Blockchain(0)` all return and
leave a ledger of `n = 2^31` records; one more call returns, the chain has `n + 1` records and
the new last record carries the former last record's hash and the payload, as claimed, but the
index it stores is `-2147483648`, not `n`. -/
theorem addBlock_index_overflow :
    ∃ (bc bc' : Blockchain) (back b : Block),
      Blockchain.addBlocks demoDigest (Blockchain.create demoDigest 0 0) manyCalls = some bc ∧
      bc.chain.length = 2147483648 ∧ bc.chain.getLast? = some back ∧
      bc.addBlock demoDigest "x" 0 1 = some bc' ∧
      bc'.chain.length = 2147483649 ∧ bc'.chain.getLast? = some b ∧
      b.previousHash = back.hash ∧ b.data = "x" ∧
      b.index = -2147483648 ∧ b.index ≠ ((2147483648 : Nat) : Int) := by
  obtain ⟨bc, hbuilt, hlen, hd⟩ :=
    Blockchain.addBlocks_difficulty_zero demoDigest "x" 0 0 2147483647
      (Blockchain.create demoDigest 0 0) rfl (le_refl 1)
  have hlen' : bc.chain.length = 2147483648 := by rw [hlen]; rfl
  obtain ⟨back, hback⟩ : ∃ back, bc.chain.getLast? = some back := by
    cases hc : bc.chain with
    | nil => rw [hc] at hlen'; cases hlen'
    | cons x xs => exact ⟨_, List.getLast?_eq_getLast _ (List.cons_ne_nil x xs)⟩
  obtain ⟨mined0, hadd, -, -⟩ :=
    Blockchain.addBlock_difficulty_zero demoDigest bc back "x" 0 0 hd hback
  obtain ⟨back', mined, hback', hchain, -, -, -, -, hidx, hprev, hdata, -⟩ :=
    Blockchain.addBlock_spec demoDigest bc _ "x" 0 1 hadd
  rw [hback] at hback'
  cases hback'
  have hidx' : mined.index = -2147483648 := by
    rw [hidx, hlen']; decide
  refine ⟨bc, _, back, mined, hbuilt, hlen', hback, hadd, ?_, ?_, hprev, hdata, hidx', ?_⟩
  · rw [hchain, List.length_append, hlen']; rfl
  · rw [hchain]; exact List.getLast?_concat _
  · rw [hidx']; decide

/-! ## C9 -/

/-- C9: if `addBlock(payload)` returns, the records of the old chain are, in order and field
for field, the first records of the new chain, and the difficulty is unchanged. -/
theorem addBlock_append_only (sha256 : Digest) (bc bc' : Blockchain) (data : String)
    (now : Int) (fuel : Nat) (h : bc.addBlock sha256 data now fuel = some bc') :
    bc'.chain.take bc.chain.length = bc.chain ∧
      (∀ (i : Nat) (b : Block), bc.chain[i]? = some b → bc'.chain[i]? = some b) ∧
      bc'.difficulty = bc.difficulty := by
  obtain ⟨back, mined, -, hchain, hdiff, -⟩ :=
    Blockchain.addBlock_spec sha256 bc bc' data now fuel h
  refine ⟨by rw [hchain]; simp, ?_, hdiff⟩
  intro i b hb
  have hlt : i < bc.chain.length := by
    by_contra hge
    rw [List.getElem?_eq_none (not_lt.mp hge)] at hb
    cases hb
  rw [hchain, List.getElem?_append_left hlt]
  exact hb

theorem addBlock_append_only_witness :
    Blockchain.addBlock demoDigest { chain := [demoGenesis, demoBlockA], difficulty := 1 }
        "B" 102 40 = some demoLedger ∧
      (demoLedger.chain.take [demoGenesis, demoBlockA].length = [demoGenesis, demoBlockA] ∧
        (∀ (i : Nat) (b : Block), [demoGenesis, demoBlockA][i]? = some b →
          demoLedger.chain[i]? = some b) ∧
        demoLedger.difficulty = 1) :=
  ⟨demoLedger_last_step,
    addBlock_append_only demoDigest { chain := [demoGenesis, demoBlockA], difficulty := 1 }
      demoLedger "B" 102 40 demoLedger_last_step⟩

/-! ## C10 -/

/-- C10: on any chain state, `isChainValid()` returns true exactly when every record at a
position `i` with `1 ≤ i` has a stored hash equal to `calculateHash()` of its own fields and a
`previousHash` equal to the hash stored at position `i - 1`; a chain of one record is valid. -/
theorem isChainValid_iff (sha256 : Digest) (bc : Blockchain) :
    (bc.isChainValid sha256 = true ↔
      ∀ (i : Nat) (current before : Block), 1 ≤ i → bc.chain[i]? = some current →
        bc.chain[i - 1]? = some before →
        current.hash = current.calculateHash sha256 ∧ current.previousHash = before.hash) ∧
      (∀ (only : Block) (d : Int),
        Blockchain.isChainValid sha256 { chain := [only], difficulty := d } = true) := by
  constructor
  · unfold Blockchain.isChainValid
    rw [decide_eq_true_iff]
    exact Blockchain.validate_valid_iff sha256 bc
  · intro only d
    simp [Blockchain.isChainValid, Blockchain.validate, Blockchain.checkFrom]

/-! ## C11 -/

/-- C11: for every difficulty the constructor leaves exactly one record, the genesis record,
with index 0, `previousHash` "0", data "Genesis Block", nonce 0 and a stored hash equal to
`calculateHash()` of those fields; after `addBlock` calls that all return, the record at
position 0 is still that record. -/
theorem genesis_invariants (sha256 : Digest) (d t0 : Int) (calls : List Call) (bc : Blockchain)
    (h : Blockchain.addBlocks sha256 (Blockchain.create sha256 d t0) calls = some bc) :
    (Blockchain.create sha256 d t0).chain = [Blockchain.createGenesisBlock sha256 t0] ∧
      (Blockchain.create sha256 d t0).chain.length = 1 ∧
      (Blockchain.createGenesisBlock sha256 t0).index = 0 ∧
      (Blockchain.createGenesisBlock sha256 t0).previousHash = "0" ∧
      (Blockchain.createGenesisBlock sha256 t0).data = "Genesis Block" ∧
      (Blockchain.createGenesisBlock sha256 t0).timestamp = t0 ∧
      (Blockchain.createGenesisBlock sha256 t0).nonce = 0 ∧
      (Blockchain.createGenesisBlock sha256 t0).hash
        = (Blockchain.createGenesisBlock sha256 t0).calculateHash sha256 ∧
      bc.chain[0]? = some (Blockchain.createGenesisBlock sha256 t0) := by
  refine ⟨rfl, rfl, rfl, rfl, rfl, rfl, rfl, rfl, ?_⟩
  refine Blockchain.addBlocks_induction sha256
    (fun x => x.chain[0]? = some (Blockchain.createGenesisBlock sha256 t0)) ?_ calls
    (Blockchain.create sha256 d t0) bc rfl h
  intro x y data now fuel hx hxy
  obtain ⟨back, mined, -, hchain, -⟩ := Blockchain.addBlock_spec sha256 x y data now fuel hxy
  have hlt : 0 < x.chain.length := (List.getElem?_eq_some_iff.mp hx).1
  rw [hchain, List.getElem?_append_left hlt]
  exact hx

theorem genesis_invariants_witness :
    Blockchain.addBlocks demoDigest (Blockchain.create demoDigest 1 100) demoCalls
        = some demoLedger ∧
      Blockchain.createGenesisBlock demoDigest 100 = demoGenesis ∧
      demoLedger.chain[0]? = some (Blockchain.createGenesisBlock demoDigest 100) :=
  ⟨demoLedger_built, by decide,
    (genesis_invariants demoDigest 1 100 demoCalls demoLedger demoLedger_built).2.2.2.2.2.2.2.2⟩

/-! ## C12 -/

/-- C12: `calculateHash()` is the hexadecimal text of the digest of the concatenation, in this
order, of the decimal text of `index`, `previousHash`, `data`, the decimal text of `timestamp`
and the decimal text of `nonce`; the stored hash is no input, so two records that agree on
those five fields have the same `calculateHash()`, whatever hash each stores. -/
theorem calculateHash_deterministic (sha256 : Digest) (a b : Block) (h1 : a.index = b.index)
    (h2 : a.previousHash = b.previousHash) (h3 : a.data = b.data)
    (h4 : a.timestamp = b.timestamp) (h5 : a.nonce = b.nonce) :
    a.calculateHash sha256
        = hexString (sha256 (toString a.index ++ a.previousHash ++ a.data ++
            toString a.timestamp ++ toString a.nonce)) ∧
      a.calculateHash sha256 = b.calculateHash sha256 ∧
      (∀ stored : String, Block.calculateHash sha256 { a with hash := stored }
        = a.calculateHash sha256) ∧
      (∀ n : Nat, decValue 0 (toString (Int.ofNat n)).data = n ∧
        toString (Int.negSucc n) = "-" ++ toString (Int.ofNat (n + 1))) :=
  ⟨rfl, Block.calculateHash_congr sha256 a b h1 h2 h3 h4 h5, fun _ => rfl,
    fun n => ⟨toDigitsCore_decValue (n + 1) n [] (Nat.lt_succ_self n), rfl⟩⟩

theorem calculateHash_deterministic_witness :
    demoBlockA.index = ({ demoBlockA with hash := "other" } : Block).index ∧
      demoBlockA.previousHash = ({ demoBlockA with hash := "other" } : Block).previousHash ∧
      demoBlockA.data = ({ demoBlockA with hash := "other" } : Block).data ∧
      demoBlockA.timestamp = ({ demoBlockA with hash := "other" } : Block).timestamp ∧
      demoBlockA.nonce = ({ demoBlockA with hash := "other" } : Block).nonce ∧
      demoBlockA.hash ≠ ({ demoBlockA with hash := "other" } : Block).hash ∧
      demoBlockA.calculateHash demoDigest
        = Block.calculateHash demoDigest { demoBlockA with hash := "other" } :=
  ⟨rfl, rfl, rfl, rfl, rfl, by decide,
    (calculateHash_deterministic demoDigest demoBlockA { demoBlockA with hash := "other" }
      rfl rfl rfl rfl rfl).2.1⟩

/-! ## C13 -/

/-- C13: `calculateHash()` returns exactly 64 characters, each a lowercase hexadecimal digit;
byte `i` of the digest gives the two characters at positions `2 i` and `2 i + 1`, the digit of
its high half first, both always present (a byte below 16 is padded with `'0'`). -/
theorem calculateHash_format (sha256 : Digest) (b : Block) :
    (b.calculateHash sha256).length = 64 ∧
      (∀ c ∈ (b.calculateHash sha256).data, c ∈ "0123456789abcdef".data) ∧
      ∀ i : Fin SHA256_DIGEST_LENGTH,
        (b.calculateHash sha256).data[2 * i.val]?
            = "0123456789abcdef".data[(sha256 b.hashInput i).val / 16]? ∧
          (b.calculateHash sha256).data[2 * i.val + 1]?
            = "0123456789abcdef".data[(sha256 b.hashInput i).val % 16]? := by
  have hdata := hexString_data (sha256 b.hashInput)
  refine ⟨?_, ?_, ?_⟩
  · show (hexString (sha256 b.hashInput)).data.length = 64
    rw [hdata, flatMap_pair_length, List.length_finRange]
    rfl
  · intro c hc
    have hc' : c ∈ (hexString (sha256 b.hashInput)).data := hc
    rw [hdata, List.mem_flatMap] at hc'
    obtain ⟨i, -, hi⟩ := hc'
    have hlt := (sha256 b.hashInput i).isLt
    rcases List.mem_cons.mp hi with rfl | hi
    · exact hexDigit_mem _ (by omega)
    · rcases List.mem_cons.mp hi with rfl | hi
      · exact hexDigit_mem _ (Nat.mod_lt _ (by decide))
      · cases hi
  · intro i
    have hlt := (sha256 b.hashInput i).isLt
    obtain ⟨h1, h2⟩ := flatMap_pair_getElem
      (fun j => hexDigit ((sha256 b.hashInput j).val / 16))
      (fun j => hexDigit ((sha256 b.hashInput j).val % 16))
      (List.finRange SHA256_DIGEST_LENGTH) i.val
    rw [finRange_getElem?] at h1 h2
    constructor
    · show (hexString (sha256 b.hashInput)).data[2 * i.val]? = _
      rw [hdata, h1, hexDigit_table _ (by omega)]
      rfl
    · show (hexString (sha256 b.hashInput)).data[2 * i.val + 1]? = _
      rw [hdata, h2, hexDigit_table _ (Nat.mod_lt _ (by decide))]
      rfl

/-! ## C14 -/

/-- C14, at the failing input: on the record `demoSaturated`, whose nonce is `INT_MAX`,
`mineBlock(0)` returns after one iteration under every digest and the stored hash is
`calculateHash()` of the record returned, as claimed, but the nonce is `-2147483648`, not its
value before the call plus one. -/
theorem mineBlock_zero_wraps (sha256 : Digest) :
    demoSaturated.nonce = INT_MAX ∧
      ∃ b' : Block, demoSaturated.mineBlock sha256 0 1 = some b' ∧
        demoSaturated.mineBlock sha256 0 0 = none ∧
        b'.hash = b'.calculateHash sha256 ∧
        b'.nonce = -2147483648 ∧ b'.nonce ≠ demoSaturated.nonce + 1 := by
  have hw : wrapInt (demoSaturated.nonce + 1) = -2147483648 := by decide
  refine ⟨rfl, _, Block.mineBlock_zero sha256 demoSaturated 0, rfl, rfl, hw, ?_⟩
  show wrapInt (demoSaturated.nonce + 1) ≠ demoSaturated.nonce + 1
  rw [hw]
  decide

/-! ## C15 -/

/-- C15: for a difficulty `d > 64` the exit test of the mining loop, `hash.substr(0, d)` equal
to `d` characters `'0'`, fails on the hash of every record, so of every nonce; `mineBlock(d)`
returns for no number of iterations, and neither does `addBlock` on a ledger of difficulty
`d`. -/
theorem difficulty_above_width_never_returns (sha256 : Digest) (d : Int) (hd : 64 < d) :
    (∀ b : Block, substr0 (b.calculateHash sha256) d.toNat ≠ zeros d.toNat) ∧
      (∀ (b : Block) (fuel : Nat), b.mineBlock sha256 d fuel = none) ∧
      (∀ (bc : Blockchain) (data : String) (now : Int) (fuel : Nat), bc.difficulty = d →
        bc.addBlock sha256 data now fuel = none) := by
  have hexit : ∀ b : Block, substr0 (b.calculateHash sha256) d.toNat ≠ zeros d.toNat := by
    intro b
    apply substr0_ne_zeros_of_short
    rw [Block.calculateHash_length]
    omega
  have hmine : ∀ (b : Block) (fuel : Nat), b.mineBlock sha256 d fuel = none := by
    intro b fuel
    unfold Block.mineBlock
    rw [if_neg (by omega)]
    exact Block.mineLoop_never sha256 d.toNat hexit fuel b
  refine ⟨hexit, hmine, ?_⟩
  intro bc data now fuel hbc
  unfold Blockchain.addBlock
  cases bc.chain.getLast? with
  | none => rfl
  | some back => simp only [hbc, hmine]

theorem difficulty_above_width_never_returns_witness :
    (64 : Int) < 65 ∧
      ((∀ b : Block, substr0 (b.calculateHash demoDigest) (65 : Int).toNat
          ≠ zeros (65 : Int).toNat) ∧
        (∀ (b : Block) (fuel : Nat), b.mineBlock demoDigest 65 fuel = none) ∧
        (∀ (bc : Blockchain) (data : String) (now : Int) (fuel : Nat), bc.difficulty = 65 →
          bc.addBlock demoDigest data now fuel = none)) :=
  ⟨by decide, difficulty_above_width_never_returns demoDigest 65 (by decide)⟩

/-! ## C16 -/

/-- C16, at the failing input: `2^31` calls of `addBlock` on `Blockchain(0)` all return; the
record at position `2^31` of the ledger they leave stores the hash `calculateHash()` gives on
its fields, as claimed, but the index it stores is `-2147483648`, not its position. -/
theorem built_index_overflow :
    ∃ (bc : Blockchain) (b : Block),
      Blockchain.addBlocks demoDigest (Blockchain.create demoDigest 0 0)
          (List.replicate 2147483648 { data := "x", now := 0, fuel := 1 }) = some bc ∧
        bc.chain[2147483648]? = some b ∧ b.hash = b.calculateHash demoDigest ∧
        b.index = -2147483648 ∧ b.index ≠ ((2147483648 : Nat) : Int) := by
  obtain ⟨bc, hbuilt, hlen, -⟩ :=
    Blockchain.addBlocks_difficulty_zero demoDigest "x" 0 0 2147483648
      (Blockchain.create demoDigest 0 0) rfl (le_refl 1)
  have hlt : 2147483648 < bc.chain.length := by
    rw [hlen]
    exact Nat.lt_add_of_pos_left (by decide)
  have hget : bc.chain[2147483648]? = some (bc.chain[2147483648]) :=
    List.getElem?_eq_getElem hlt
  obtain ⟨hsealed, hi⟩ := sealed_of_built demoDigest 0 0 _ bc hbuilt 2147483648 _ hget
  have hidx : (bc.chain[2147483648]).index = -2147483648 := by
    rw [hi]
    decide
  exact ⟨bc, _, hbuilt, hget, hsealed, hidx, by rw [hidx]; decide⟩

/-! ## C17 -/

/-- C17: if `mineBlock(d)` returns, the record's index, `previousHash`, data and timestamp are
what they were before the call; only the nonce and the stored hash can differ. -/
theorem mineBlock_frame (sha256 : Digest) (b b' : Block) (d : Int) (fuel : Nat)
    (h : b.mineBlock sha256 d fuel = some b') :
    b'.index = b.index ∧ b'.previousHash = b.previousHash ∧ b'.data = b.data ∧
      b'.timestamp = b.timestamp ∧
      b' = { b with nonce := b'.nonce, hash := b'.hash } := by
  obtain ⟨-, -, -, e1, e2, e3, e4⟩ := Block.mineBlock_spec sha256 b b' d fuel h
  refine ⟨e1, e2, e3, e4, ?_⟩
  cases b; cases b'
  simp only at e1 e2 e3 e4
  simp [e1, e2, e3, e4]

theorem mineBlock_frame_witness :
    (Block.create demoDigest 1 "ab" "A" 101).mineBlock demoDigest 1 100 = some demoMined ∧
      (demoMined.index = (Block.create demoDigest 1 "ab" "A" 101).index ∧
        demoMined.previousHash = (Block.create demoDigest 1 "ab" "A" 101).previousHash ∧
        demoMined.data = (Block.create demoDigest 1 "ab" "A" 101).data ∧
        demoMined.timestamp = (Block.create demoDigest 1 "ab" "A" 101).timestamp ∧
        demoMined = { Block.create demoDigest 1 "ab" "A" 101 with
          nonce := demoMined.nonce, hash := demoMined.hash }) :=
  ⟨by decide,
    mineBlock_frame demoDigest (Block.create demoDigest 1 "ab" "A" 101) demoMined 1 100
      (by decide)⟩

/-! ## C18 -/

/-- C18, at the failing input: on the record `demoSaturated`, whose nonce `n0` is `INT_MAX`,
`mineBlock(0)` returns under every digest with nonce `n = -2147483648`, and `mineBlock(1)`
returns under `demoDigest` with nonce `n = -2147483619` and a hash that starts with `'0'`;
in both runs `n ≥ n0 + 1` fails: the search went on below the starting nonce. -/
theorem mineBlock_nonce_below_start (sha256 : Digest) :
    demoSaturated.nonce = INT_MAX ∧
      (∃ b' : Block, demoSaturated.mineBlock sha256 0 1 = some b' ∧
        b'.nonce = -2147483648 ∧ ¬ (demoSaturated.nonce + 1 ≤ b'.nonce)) ∧
      demoSaturated.mineBlock demoDigest 1 30 = some demoWrapped ∧
      substr0 demoWrapped.hash (1 : Int).toNat = zeros (1 : Int).toNat ∧
      demoWrapped.nonce = -2147483619 ∧ ¬ (demoSaturated.nonce + 1 ≤ demoWrapped.nonce) := by
  have hw : wrapInt (demoSaturated.nonce + 1) = -2147483648 := by decide
  refine ⟨rfl, ⟨_, Block.mineBlock_zero sha256 demoSaturated 0, hw, ?_⟩, by decide, by decide,
    rfl, by decide⟩
  show ¬ (demoSaturated.nonce + 1 ≤ wrapInt (demoSaturated.nonce + 1))
  rw [hw]
  decide

/-! ## C19 -/

/-- C19: the text that is hashed does not determine the fields.  Two records that differ only
in data and timestamp, "A" with 12 and "A1" with 2, give the same text, so the same
`calculateHash()` under every digest; and in a chain that `isChainValid` accepts, replacing a
record by one with the same hashed text, the same `previousHash` and the same stored hash
leaves `isChainValid` true. -/
theorem hashInput_not_injective (sha256 : Digest) (bc : Blockchain) (k : Nat) (r r' : Block)
    (hvalid : bc.isChainValid sha256 = true) (hr : bc.chain[k]? = some r)
    (hin : r'.hashInput = r.hashInput) (hprev : r'.previousHash = r.previousHash)
    (hhash : r'.hash = r.hash) :
    (∃ a b : Block, a.index = b.index ∧ a.previousHash = b.previousHash ∧ a.nonce = b.nonce ∧
        a.data = "A" ∧ a.timestamp = 12 ∧ b.data = "A1" ∧ b.timestamp = 2 ∧
        a.hashInput = b.hashInput ∧ ∀ s : Digest, a.calculateHash s = b.calculateHash s) ∧
      (∀ s : Digest, r'.calculateHash s = r.calculateHash s) ∧
      (bc.overwrite k r').isChainValid sha256 = true := by
  have hcalc : ∀ s : Digest, r'.calculateHash s = r.calculateHash s := by
    intro s
    unfold Block.calculateHash
    rw [hin]
  have hex : pairBlockA.hashInput = pairBlockA1.hashInput := by decide
  refine ⟨⟨pairBlockA, pairBlockA1, rfl, rfl, rfl, rfl, rfl, rfl, rfl, hex, ?_⟩, hcalc, ?_⟩
  · intro s
    unfold Block.calculateHash
    rw [hex]
  · have hv : bc.validate sha256 = .valid := by
      unfold Blockchain.isChainValid at hvalid
      exact of_decide_eq_true hvalid
    unfold Blockchain.isChainValid
    exact decide_eq_true
      (Blockchain.validate_overwrite_valid sha256 bc k r r' hv hr (hcalc sha256) hprev hhash)

theorem hashInput_not_injective_witness :
    Blockchain.addBlocks demoDigest (Blockchain.create demoDigest 0 10) pairCalls
        = some pairLedger ∧
      pairLedger.isChainValid demoDigest = true ∧ pairLedger.chain[1]? = some pairBlockA ∧
      pairBlockA1 ≠ pairBlockA ∧ pairBlockA1.hashInput = pairBlockA.hashInput ∧
      pairBlockA1.previousHash = pairBlockA.previousHash ∧ pairBlockA1.hash = pairBlockA.hash ∧
      (∀ s : Digest, pairBlockA1.calculateHash s = pairBlockA.calculateHash s) ∧
      (pairLedger.overwrite 1 pairBlockA1).isChainValid demoDigest = true :=
  ⟨pairLedger_built, by decide, rfl, by decide, by decide, rfl, rfl,
    (hashInput_not_injective demoDigest pairLedger 1 pairBlockA pairBlockA1 (by decide) rfl
      (by decide) rfl rfl).2⟩

/-! ## C20 -/

/-- C20: `isChainValid` never reads the difficulty: two ledgers with the same records and
different difficulties get the same answer.  Under every digest there is a ledger of a
difficulty `d ≥ 1` that `isChainValid` accepts although a record after the first has a hash
that does not start with `d` characters `'0'`; under `demoDigest` the built ledger
`pairLedger`, its difficulty set to 1, is one. -/
theorem validation_ignores_difficulty (sha256 : Digest) :
    (∀ (chain : List Block) (d1 d2 : Int),
        Blockchain.isChainValid sha256 { chain := chain, difficulty := d1 }
          = Blockchain.isChainValid sha256 { chain := chain, difficulty := d2 }) ∧
      (∃ (d : Int) (bc : Blockchain) (i : Nat) (b : Block), 1 ≤ d ∧ bc.difficulty = d ∧
        bc.isChainValid sha256 = true ∧ 1 ≤ i ∧ bc.chain[i]? = some b ∧
        substr0 b.hash d.toNat ≠ zeros d.toNat) ∧
      (Blockchain.isChainValid demoDigest { pairLedger with difficulty := 1 } = true ∧
        pairLedger.chain[2]? = some pairBlockB ∧
        substr0 pairBlockB.hash (1 : Int).toNat ≠ zeros (1 : Int).toNat) := by
  refine ⟨fun _ _ _ => rfl, ?_, by decide, rfl, by decide⟩
  refine ⟨65,
    { chain := [Blockchain.createGenesisBlock sha256 0,
        Block.create sha256 1 (Blockchain.createGenesisBlock sha256 0).hash "x" 0],
      difficulty := 65 },
    1, Block.create sha256 1 (Blockchain.createGenesisBlock sha256 0).hash "x" 0,
    by decide, rfl, ?_, le_refl 1, rfl, ?_⟩
  · simp [Blockchain.isChainValid, Blockchain.validate, Blockchain.checkFrom, Block.create]
    rfl
  · apply substr0_ne_zeros_of_short
    show (Block.calculateHash sha256 _).length < _
    rw [Block.calculateHash_length]
    decide
